import Mathlib

/-!
Verification development for the nutrition preprocessing pipeline
(`preprocessing/automate_nutrition_preprocessing.py`).

The pipeline works on one in-memory pandas DataFrame.  We embed a DataFrame
as a `Table`: an ordered list of column descriptors (name plus inferred
dtype, numeric vs categorical/object) together with a list of rows, each
row a list of cells.  A cell is either a missing entry (pandas `NaN`), a
numeric value (modelled as a rational), or a text value.  Each stage of the
pipeline is translated into a Lean function on `Table`.
-/

namespace NutritionPrep

/-- Inferred dtype of a column: numeric (`float64`/`int64`) or
categorical (`object`). -/
inductive ColType where
  | numeric
  | categorical
deriving DecidableEq

/-- One cell of the table: a missing entry (`NaN`), a numeric value, or a
text value.  Numeric values are modelled as rationals. -/
inductive Cell where
  | missing
  | num (q : ℚ)
  | txt (s : String)
deriving DecidableEq

/-- A DataFrame: ordered named, typed columns and a list of rows. -/
structure Table where
  cols : List (String × ColType)
  rows : List (List Cell)
deriving DecidableEq

/-- The list of column names, in order (`df.columns`). -/
def colNames (t : Table) : List String :=
  t.cols.map Prod.fst

/-- `df.shape`: (number of rows, number of columns). -/
def shape (t : Table) : Nat × Nat :=
  (t.rows.length, t.cols.length)

/-- Well-formed table: every row has exactly one cell per column. -/
def WF (t : Table) : Prop :=
  ∀ r ∈ t.rows, r.length = t.cols.length

instance (t : Table) : Decidable (WF t) := by
  unfold WF; infer_instance

/-- Whether a cell is a missing entry (`isnull`). -/
def cellIsMissing : Cell → Bool
  | Cell.missing => true
  | _ => false

/-- Whether a row contains at least one missing entry. -/
def rowHasMissing (r : List Cell) : Bool :=
  r.any cellIsMissing

/-- Total number of missing entries in the table
(`df.isnull().sum().sum()`). -/
def countMissing (t : Table) : Nat :=
  (t.rows.map (fun r => (r.filter cellIsMissing).length)).sum

/-- `check_missing_values`: if the total missing count is zero the table is
returned unchanged; otherwise `df.dropna(inplace=True)` removes every row
that contains at least one missing entry. -/
def check_missing_values (t : Table) : Table :=
  if countMissing t = 0 then t
  else { t with rows := t.rows.filter (fun r => !rowHasMissing r) }

/-- Number of elements of `l` that are preceded by an equal element, given
the elements already `seen` (helper for `df.duplicated().sum()`). -/
def dupCountAux {α : Type} [DecidableEq α] : List α → List α → Nat
  | [], _ => 0
  | x :: xs, seen =>
      (if x ∈ seen then 1 else 0) + dupCountAux xs (x :: seen)

/-- `df.duplicated().sum()`: the number of rows for which an earlier
identical row exists (first-occurrence-wins marking). -/
def dupCount {α : Type} [DecidableEq α] (l : List α) : Nat :=
  dupCountAux l []

/-- Keep only the first occurrence of each element, preserving order,
given the elements already `seen` (helper for `drop_duplicates`). -/
def dedupKeepFirstAux {α : Type} [DecidableEq α] : List α → List α → List α
  | [], _ => []
  | x :: xs, seen =>
      if x ∈ seen then dedupKeepFirstAux xs seen
      else x :: dedupKeepFirstAux xs (x :: seen)

/-- `df.drop_duplicates()`: keep the first occurrence of each row group,
preserving the relative order of kept rows. -/
def dedupKeepFirst {α : Type} [DecidableEq α] (l : List α) : List α :=
  dedupKeepFirstAux l []

/-- The cells of the first column named `name`, one per row (helper for
per-column diagnostics and extraction).  Returns `none` for a row that is
too short or when no column carries the name. -/
def rowCell (name : String) : List (String × ColType) → List Cell → Option Cell
  | [], _ => none
  | _, [] => none
  | c :: cs, x :: xs => if c.1 = name then some x else rowCell name cs xs

/-- The column named `name`, as the list of its cells down the rows. -/
def colCells (t : Table) (name : String) : List Cell :=
  t.rows.filterMap (rowCell name t.cols)

/-- Diagnostic printed by `check_duplicates` for one categorical column:
the count of duplicated values within that column alone
(`df[col].duplicated().sum()`).  Purely informational. -/
def categoricalDupCount (t : Table) (name : String) : Nat :=
  dupCount (colCells t name)

/-- `check_duplicates`: counts full-row duplicates and, per categorical
column, reports the within-column duplicate count (diagnostic only).  When
the full-row duplicate count is positive, `df.drop_duplicates(inplace=True)`
keeps the first occurrence of each row group; otherwise the table is
returned unchanged. -/
def check_duplicates (t : Table) : Table :=
  if 0 < dupCount t.rows then { t with rows := dedupKeepFirst t.rows }
  else t

/-- `describe_data`: prints descriptive statistics and returns the table
unmodified. -/
def describe_data (t : Table) : Table :=
  t

/-- `cols_to_remove` inside `drop_unnecessary_columns`: the requested drop
names that actually exist among the table's columns
(`[col for col in columns_to_drop if col in df_clean.columns]`). -/
def cols_to_remove (t : Table) (columns_to_drop : List String) : List String :=
  columns_to_drop.filter (fun c => (colNames t).contains c)

/-- Remove from one row the cells sitting under a column whose name is in
`rem` (the row-level effect of `df.drop(columns=rem)`). -/
def dropRowCells (cs : List (String × ColType)) (rem : List String) (r : List Cell) : List Cell :=
  ((cs.zip r).filter (fun p => !rem.contains p.1.1)).map Prod.snd

/-- `drop_unnecessary_columns`: works on a copy; computes the requested
drop names that exist, and when that list is nonempty drops exactly those
columns.  Names absent from the table are silently ignored. -/
def drop_unnecessary_columns (t : Table) (columns_to_drop : List String) : Table :=
  let rem := cols_to_remove t columns_to_drop
  if rem.isEmpty then t
  else
    { cols := t.cols.filter (fun c => !rem.contains c.1),
      rows := t.rows.map (dropRowCells t.cols rem) }

/-- Numeric content of a cell, if any. -/
def cellNum : Cell → Option ℚ
  | Cell.num q => some q
  | _ => none

/-- The numeric values of the column named `name`, in row order, skipping
missing and text entries (pandas/sklearn min-max statistics skip `NaN`). -/
def colVals (t : Table) (name : String) : List ℚ :=
  (colCells t name).filterMap cellNum

/-- Minimum of a list of rationals, `0` for the empty list. -/
def listMinQ : List ℚ → ℚ
  | [] => 0
  | x :: xs => xs.foldl min x

/-- Maximum of a list of rationals, `0` for the empty list. -/
def listMaxQ : List ℚ → ℚ
  | [] => 0
  | x :: xs => xs.foldl max x

/-- `data_min_` of the fitted `MinMaxScaler` for one column. -/
def colMin (t : Table) (name : String) : ℚ :=
  listMinQ (colVals t name)

/-- `data_max_` of the fitted `MinMaxScaler` for one column. -/
def colMax (t : Table) (name : String) : ℚ :=
  listMaxQ (colVals t name)

/-- The denominator actually used by sklearn's `MinMaxScaler`:
`_handle_zeros_in_scale` replaces a zero data range `max - min` by `1`
before dividing. -/
def scaleDenom (mn mx : ℚ) : ℚ :=
  if mx - mn = 0 then 1 else mx - mn

/-- The fitted `MinMaxScaler` transform of one value for a column with
data minimum `mn` and data maximum `mx` (feature range `[0, 1]`):
`(x - mn) / scaleDenom mn mx`. -/
def minMaxTransform (mn mx x : ℚ) : ℚ :=
  (x - mn) / scaleDenom mn mx

/-- The fitted scaler: per target column, its name with the data minimum
and data maximum observed at fit time. -/
def fitScaler (t : Table) (names : List String) : List (String × ℚ × ℚ) :=
  names.map (fun n => (n, colMin t n, colMax t n))

/-- First fitted entry for a column name, if the scaler covers it. -/
def scalerLookup : List (String × ℚ × ℚ) → String → Option (ℚ × ℚ)
  | [], _ => none
  | e :: es, name => if e.1 = name then some e.2 else scalerLookup es name

/-- Apply the fitted scaler to one cell of the column named `name`:
numeric cells of a covered column are rescaled, every other cell
(missing, text, or uncovered column) passes through unchanged. -/
def transformCell (s : List (String × ℚ × ℚ)) (name : String) (c : Cell) : Cell :=
  match scalerLookup s name, c with
  | some (mn, mx), Cell.num q => Cell.num (minMaxTransform mn mx q)
  | _, _ => c

/-- Apply the fitted scaler to a whole row, cell by cell under its column
descriptor. -/
def transformRow (s : List (String × ℚ × ℚ)) (cs : List (String × ColType)) (r : List Cell) : List Cell :=
  (cs.zip r).map (fun p => transformCell s p.1.1 p.2)

/-- `df_normalized[numeric_cols] = scaler.fit_transform(df[numeric_cols])`:
the copy of the table whose covered numeric cells are rescaled. -/
def applyScaler (s : List (String × ℚ × ℚ)) (t : Table) : Table :=
  { cols := t.cols, rows := t.rows.map (transformRow s t.cols) }

/-- Auto-detected numeric columns
(`df.select_dtypes(include=['float64','int64']).columns.tolist()`). -/
def numericColNames (t : Table) : List String :=
  (t.cols.filter (fun c => c.2 = ColType.numeric)).map Prod.fst

/-- Resolution of the normalizer's target columns: auto-detect numeric
columns when no list is given, otherwise keep the given names that exist
in the table (`[col for col in numeric_columns if col in df.columns]`). -/
def resolveNumericCols (t : Table) : Option (List String) → List String
  | none => numericColNames t
  | some l => l.filter (fun c => (colNames t).contains c)

/-- `normalize_features`: resolves the target columns, fits a
`MinMaxScaler` on them, and returns the rescaled copy of the table, the
fitted scaler, and the resolved column names. -/
def normalize_features (t : Table) (numeric_columns : Option (List String)) :
    Table × List (String × ℚ × ℚ) × List String :=
  let numeric_cols := resolveNumericCols t numeric_columns
  let scaler := fitScaler t numeric_cols
  (applyScaler scaler t, scaler, numeric_cols)

/-- Execution trace of `drop_unnecessary_columns` at the object level:
the function first takes `df_clean = df.copy()`, and its only in-place
call (`df_clean.drop(..., inplace=True)`) targets that copy.  The pair
holds (value of the returned object, final value of the caller's argument
object): no in-place call ever targets the argument, so its final value is
its initial one. -/
def drop_unnecessary_columns_trace (df : Table) (columns_to_drop : List String) : Table × Table :=
  let df_clean := drop_unnecessary_columns df columns_to_drop
  (df_clean, df)

/-- Execution trace of `normalize_features` at the object level:
`fit_transform` reads `df[numeric_cols]` without mutating `df`, and the
only in-place update (`df_normalized[numeric_cols] = scaled_values`)
targets the fresh copy `df_normalized = df.copy()`.  The pair holds
(returned triple, final value of the caller's argument object). -/
def normalize_features_trace (df : Table) (numeric_columns : Option (List String)) :
    (Table × List (String × ℚ × ℚ) × List String) × Table :=
  (normalize_features df numeric_columns, df)

/-- The metadata record assembled by `preprocessing_pipeline`. -/
structure PipelineMetadata where
  input_file : String
  output_file : Option String
  original_shape : Nat × Nat
  final_shape : Nat × Nat
  columns_dropped : List String
  normalized_columns : List String
  scaler : List (String × ℚ × ℚ)
deriving DecidableEq

/-- `preprocessing_pipeline`: sequences the stages on the loaded table.
`load_data` is file input; the pipeline is modelled from the point where
the CSV at `input_filepath` has been parsed into the table `loaded`.  The
`metadata` dictionary is built at the end: its `original_shape` reads
`df.shape` from the variable `df`, which by then holds the table returned
by the quality-check stages, and its `columns_dropped` stores the
`columns_to_drop` argument itself. -/
def preprocessing_pipeline (input_filepath : String) (loaded : Table)
    (output_filepath : Option String) (columns_to_drop : List String)
    (numeric_columns : Option (List String)) :
    Table × List (String × ℚ × ℚ) × List String × PipelineMetadata :=
  let df := check_missing_values loaded
  let df := check_duplicates df
  let df := describe_data df
  let df_clean := drop_unnecessary_columns df columns_to_drop
  let res := normalize_features df_clean numeric_columns
  let df_normalized := res.1
  let scaler := res.2.1
  let numeric_cols := res.2.2
  (df_normalized, scaler, numeric_cols,
    { input_file := input_filepath,
      output_file := output_filepath,
      original_shape := shape df,
      final_shape := shape df_normalized,
      columns_dropped := columns_to_drop,
      normalized_columns := numeric_cols,
      scaler := scaler })

/-! ### Concrete tables used to instantiate the theorems -/

/-- A two-row table with one missing `calories` entry. -/
def exMissT : Table :=
  { cols := [("id", ColType.numeric), ("calories", ColType.numeric)],
    rows := [[Cell.num 1, Cell.num 10], [Cell.num 2, Cell.missing]] }

/-- A three-row categorical table whose first row is duplicated. -/
def exDupT : Table :=
  { cols := [("name", ColType.categorical)],
    rows := [[Cell.txt "a"], [Cell.txt "a"], [Cell.txt "b"]] }

/-- A clean two-row numeric table with distinct values. -/
def exNormT : Table :=
  { cols := [("calories", ColType.numeric)], rows := [[Cell.num 1], [Cell.num 3]] }

/-- A two-row numeric table whose unique column is constant. -/
def exConstT : Table :=
  { cols := [("x", ColType.numeric)], rows := [[Cell.num 5], [Cell.num 5]] }

/-- A clean two-row table with two columns and no duplicates. -/
def exUniqT : Table :=
  { cols := [("name", ColType.categorical), ("fat", ColType.numeric)],
    rows := [[Cell.txt "a", Cell.num 2], [Cell.txt "b", Cell.num 7]] }

/-! ### Helper lemmas: duplicates -/

theorem dedupKeepFirstAux_sublist {α : Type} [DecidableEq α] :
    ∀ (l seen : List α), (dedupKeepFirstAux l seen).Sublist l := by
  intro l
  induction l with
  | nil => intro seen; simp [dedupKeepFirstAux]
  | cons x xs ih =>
      intro seen
      simp only [dedupKeepFirstAux]
      split
      · exact (ih seen).cons x
      · exact (ih (x :: seen)).cons₂ x

theorem dedupKeepFirstAux_not_mem_seen {α : Type} [DecidableEq α] :
    ∀ (l seen : List α) (a : α), a ∈ dedupKeepFirstAux l seen → a ∉ seen := by
  intro l
  induction l with
  | nil => intro seen a ha; simp [dedupKeepFirstAux] at ha
  | cons x xs ih =>
      intro seen a ha
      simp only [dedupKeepFirstAux] at ha
      split at ha
      · exact ih seen a ha
      · rcases List.mem_cons.mp ha with h | h
        · subst h; assumption
        · have := ih (x :: seen) a h
          exact fun hs => this (List.mem_cons_of_mem x hs)

theorem dedupKeepFirstAux_nodup {α : Type} [DecidableEq α] :
    ∀ (l seen : List α), (dedupKeepFirstAux l seen).Nodup := by
  intro l
  induction l with
  | nil => intro seen; simp [dedupKeepFirstAux]
  | cons x xs ih =>
      intro seen
      simp only [dedupKeepFirstAux]
      split
      · exact ih seen
      · refine List.nodup_cons.mpr ⟨?_, ih (x :: seen)⟩
        intro hx
        exact dedupKeepFirstAux_not_mem_seen xs (x :: seen) x hx (List.mem_cons_self x seen)

theorem dedupKeepFirstAux_mem {α : Type} [DecidableEq α] :
    ∀ (l seen : List α) (a : α), a ∈ l → a ∈ dedupKeepFirstAux l seen ∨ a ∈ seen := by
  intro l
  induction l with
  | nil => intro seen a ha; simp at ha
  | cons x xs ih =>
      intro seen a ha
      simp only [dedupKeepFirstAux]
      rcases List.mem_cons.mp ha with h | h
      · subst h
        split
        · right; assumption
        · left; exact List.mem_cons_self a _
      · split
        · exact ih seen a h
        · rcases ih (x :: seen) a h with h2 | h2
          · left; exact List.mem_cons_of_mem x h2
          · rcases List.mem_cons.mp h2 with h3 | h3
            · subst h3; left; exact List.mem_cons_self a _
            · right; exact h3

theorem dupCountAux_eq_zero {α : Type} [DecidableEq α] :
    ∀ (l seen : List α), dupCountAux l seen = 0 → dedupKeepFirstAux l seen = l := by
  intro l
  induction l with
  | nil => intro seen _; rfl
  | cons x xs ih =>
      intro seen h
      simp only [dupCountAux] at h
      simp only [dedupKeepFirstAux]
      split
      · next hx => simp [hx] at h
      · next hx =>
          have hxs : dupCountAux xs (x :: seen) = 0 := by
            simp [hx] at h; exact h
          rw [ih (x :: seen) hxs]

theorem check_duplicates_rows_sublist (t : Table) :
    (check_duplicates t).rows.Sublist t.rows := by
  unfold check_duplicates
  split
  · exact dedupKeepFirstAux_sublist t.rows []
  · exact List.Sublist.refl t.rows

/-! ### Helper lemmas: missing values -/

theorem countMissing_eq_zero {t : Table} (h : countMissing t = 0) :
    ∀ r ∈ t.rows, rowHasMissing r = false := by
  intro r hr
  unfold countMissing at h
  have hz : (r.filter cellIsMissing).length = 0 := by
    have := List.sum_eq_zero_iff.mp h
    exact this _ (List.mem_map_of_mem (fun r => (r.filter cellIsMissing).length) hr)
  have hnil : r.filter cellIsMissing = [] := List.length_eq_zero.mp hz
  have hall : ∀ c ∈ r, ¬ cellIsMissing c := by
    intro c hc
    intro hcm
    have : c ∈ r.filter cellIsMissing := List.mem_filter.mpr ⟨hc, hcm⟩
    rw [hnil] at this
    simp at this
  simp only [rowHasMissing, List.any_eq_false]
  intro c hc
  exact hall c hc

theorem check_missing_values_rows (t : Table) :
    (check_missing_values t).rows = t.rows.filter (fun r => !rowHasMissing r) := by
  unfold check_missing_values
  split
  · next h =>
      have hall := countMissing_eq_zero h
      have : t.rows.filter (fun r => !rowHasMissing r) = t.rows := by
        apply List.filter_eq_self.mpr
        intro r hr
        simp [hall r hr]
      rw [this]
  · rfl

/-! ### Claim theorems: quality checks -/

/-- Claim C4: `check_missing_values` returns the table unchanged when the total
missing count is zero, and otherwise removes exactly the rows containing
at least one missing value; after the quality-check stages the row count
is at most the original one and no surviving row contains a missing value.
The stage is a total function, so it raises no error. -/
theorem check_missing_values_spec (t : Table) :
    (countMissing t = 0 → check_missing_values t = t) ∧
    (check_missing_values t).rows = t.rows.filter (fun r => !rowHasMissing r) ∧
    (check_duplicates (check_missing_values t)).rows.length ≤ t.rows.length ∧
    ∀ r ∈ (check_duplicates (check_missing_values t)).rows, rowHasMissing r = false := by
  refine ⟨?_, check_missing_values_rows t, ?_, ?_⟩
  · intro h
    simp [check_missing_values, h]
  · calc (check_duplicates (check_missing_values t)).rows.length
        ≤ (check_missing_values t).rows.length :=
          (check_duplicates_rows_sublist (check_missing_values t)).length_le
      _ ≤ t.rows.length := by
          rw [check_missing_values_rows t]
          exact List.length_filter_le _ _
  · intro r hr
    have hr2 : r ∈ (check_missing_values t).rows :=
      (check_duplicates_rows_sublist (check_missing_values t)).subset hr
    rw [check_missing_values_rows t] at hr2
    have := List.of_mem_filter hr2
    simpa using this

/-- Witness for C4 at a concrete clean table. -/
theorem check_missing_values_spec_witness :
    countMissing exUniqT = 0 ∧ check_missing_values exUniqT = exUniqT :=
  ⟨by decide, (check_missing_values_spec exUniqT).1 (by decide)⟩

/-- Claim C5: `check_duplicates` keeps exactly the first occurrence of each
full-row group, the kept rows are a sublist of the input rows (relative
order preserved), afterwards no two rows are identical, every input row is
still represented, and when the full-row duplicate count is zero the table
is returned unchanged — the per-categorical-column duplicate counting is
diagnostic only and never removes rows by itself. -/
theorem check_duplicates_spec (t : Table) :
    (check_duplicates t).rows = dedupKeepFirst t.rows ∧
    (check_duplicates t).rows.Sublist t.rows ∧
    (check_duplicates t).rows.Nodup ∧
    (∀ r ∈ t.rows, r ∈ (check_duplicates t).rows) ∧
    (dupCount t.rows = 0 → check_duplicates t = t) := by
  have hrows : (check_duplicates t).rows = dedupKeepFirst t.rows := by
    unfold check_duplicates
    split
    · rfl
    · next h =>
        have hz : dupCount t.rows = 0 := Nat.eq_zero_of_not_pos h
        unfold dedupKeepFirst
        rw [dupCountAux_eq_zero t.rows [] hz]
  refine ⟨hrows, check_duplicates_rows_sublist t, ?_, ?_, ?_⟩
  · rw [hrows]; exact dedupKeepFirstAux_nodup t.rows []
  · intro r hr
    rw [hrows]
    rcases dedupKeepFirstAux_mem t.rows [] r hr with h | h
    · exact h
    · simp at h
  · intro h
    unfold check_duplicates
    simp [h]

/-- Witness for C5 at a concrete duplicate-free table. -/
theorem check_duplicates_spec_witness :
    dupCount exUniqT.rows = 0 ∧ check_duplicates exUniqT = exUniqT :=
  ⟨by decide, (check_duplicates_spec exUniqT).2.2.2.2 (by decide)⟩

/-! ### Helper lemmas: column pruner -/

theorem mem_cols_to_remove {t : Table} {d : List String} {n : String} :
    n ∈ cols_to_remove t d ↔ n ∈ d ∧ n ∈ colNames t := by
  unfold cols_to_remove
  simp [List.mem_filter]

theorem cols_to_remove_idem (t : Table) (d : List String) :
    cols_to_remove t (cols_to_remove t d) = cols_to_remove t d := by
  unfold cols_to_remove
  rw [List.filter_filter]
  apply List.filter_congr
  intro a _
  simp [Bool.and_self]

/-! ### Claim theorems: column pruner and frame effects -/

/-- Claim C6: the pruned table's column names are exactly the original names
minus the drop list, and the result only depends on the intersection of
the drop list with the present columns, so a nonexistent name in the drop
list is silently ignored (a no-op, not an error). -/
theorem drop_unnecessary_columns_spec (t : Table) (d : List String) :
    (∀ n : String,
      n ∈ colNames (drop_unnecessary_columns t d) ↔ n ∈ colNames t ∧ n ∉ d) ∧
    drop_unnecessary_columns t d = drop_unnecessary_columns t (cols_to_remove t d) := by
  constructor
  · intro n
    simp only [drop_unnecessary_columns]
    split
    · next hemp =>
        have hnone : ∀ m ∈ colNames t, m ∉ d := by
          intro m hm hmd
          have : m ∈ cols_to_remove t d := mem_cols_to_remove.mpr ⟨hmd, hm⟩
          rw [List.isEmpty_iff.mp hemp] at this
          simp at this
        constructor
        · intro h; exact ⟨h, hnone n h⟩
        · intro h; exact h.1
    · next hemp =>
        have h1 : (n ∈ colNames
            { cols := t.cols.filter (fun c => !(cols_to_remove t d).contains c.1),
              rows := t.rows.map (dropRowCells t.cols (cols_to_remove t d)) }) ↔
            (n ∈ colNames t ∧ n ∉ cols_to_remove t d) := by
          simp [colNames, List.mem_filter]
        rw [h1]
        constructor
        · rintro ⟨hmem, hnr⟩
          exact ⟨hmem, fun hd => hnr (mem_cols_to_remove.mpr ⟨hd, hmem⟩)⟩
        · rintro ⟨hmem, hnd⟩
          exact ⟨hmem, fun hr => hnd (mem_cols_to_remove.mp hr).1⟩
  · show drop_unnecessary_columns t d = drop_unnecessary_columns t (cols_to_remove t d)
    unfold drop_unnecessary_columns
    rw [cols_to_remove_idem]

/-- Witness for C6: dropping the absent name `image` together with the
present name `id` removes exactly `id`. -/
theorem drop_unnecessary_columns_spec_witness :
    (("calories" ∈ colNames (drop_unnecessary_columns exMissT ["id", "image"])) ↔
      ("calories" ∈ colNames exMissT ∧ "calories" ∉ (["id", "image"] : List String))) ∧
    colNames (drop_unnecessary_columns exMissT ["id", "image"]) = ["calories"] :=
  ⟨(drop_unnecessary_columns_spec exMissT ["id", "image"]).1 "calories", by decide⟩

/-- Claim C7: in the object-level execution traces, `drop_unnecessary_columns`
and `normalize_features` both return a fresh table while the caller's
argument object keeps its initial value — every in-place call in either
function targets the internal `df.copy()`, never the argument. -/
theorem stage_traces_leave_input_unchanged (df : Table) (d : List String)
    (nc : Option (List String)) :
    (drop_unnecessary_columns_trace df d).2 = df ∧
    (drop_unnecessary_columns_trace df d).1 = drop_unnecessary_columns df d ∧
    (normalize_features_trace df nc).2 = df ∧
    (normalize_features_trace df nc).1 = normalize_features df nc :=
  ⟨rfl, rfl, rfl, rfl⟩

/-! ### Helper lemmas: list minimum and maximum -/

theorem foldl_min_mem : ∀ (xs : List ℚ) (x : ℚ), xs.foldl min x ∈ x :: xs := by
  intro xs
  induction xs with
  | nil => intro x; simp
  | cons y ys ih =>
      intro x
      have h := ih (min x y)
      rcases List.mem_cons.mp h with h1 | h1
      · rcases min_choice x y with h2 | h2
        · rw [List.foldl_cons, h1, h2]; exact List.mem_cons_self x _
        · rw [List.foldl_cons, h1, h2]
          exact List.mem_cons_of_mem x (List.mem_cons_self y ys)
      · rw [List.foldl_cons]
        exact List.mem_cons_of_mem x (List.mem_cons_of_mem y h1)

theorem foldl_min_le : ∀ (xs : List ℚ) (x y : ℚ), y ∈ x :: xs → xs.foldl min x ≤ y := by
  intro xs
  induction xs with
  | nil =>
      intro x y hy
      rcases List.mem_cons.mp hy with h | h
      · subst h; simp
      · simp at h
  | cons z zs ih =>
      intro x y hy
      rw [List.foldl_cons]
      rcases List.mem_cons.mp hy with h | h
      · subst h
        calc zs.foldl min (min y z) ≤ min y z := ih (min y z) _ (List.mem_cons_self _ _)
          _ ≤ y := min_le_left y z
      · rcases List.mem_cons.mp h with h2 | h2
        · subst h2
          calc zs.foldl min (min x y) ≤ min x y := ih (min x y) _ (List.mem_cons_self _ _)
            _ ≤ y := min_le_right x y
        · exact ih (min x z) y (List.mem_cons_of_mem _ h2)

theorem foldl_max_mem : ∀ (xs : List ℚ) (x : ℚ), xs.foldl max x ∈ x :: xs := by
  intro xs
  induction xs with
  | nil => intro x; simp
  | cons y ys ih =>
      intro x
      have h := ih (max x y)
      rcases List.mem_cons.mp h with h1 | h1
      · rcases max_choice x y with h2 | h2
        · rw [List.foldl_cons, h1, h2]; exact List.mem_cons_self x _
        · rw [List.foldl_cons, h1, h2]
          exact List.mem_cons_of_mem x (List.mem_cons_self y ys)
      · rw [List.foldl_cons]
        exact List.mem_cons_of_mem x (List.mem_cons_of_mem y h1)

theorem le_foldl_max : ∀ (xs : List ℚ) (x y : ℚ), y ∈ x :: xs → y ≤ xs.foldl max x := by
  intro xs
  induction xs with
  | nil =>
      intro x y hy
      rcases List.mem_cons.mp hy with h | h
      · subst h; simp
      · simp at h
  | cons z zs ih =>
      intro x y hy
      rw [List.foldl_cons]
      rcases List.mem_cons.mp hy with h | h
      · subst h
        calc y ≤ max y z := le_max_left y z
          _ ≤ zs.foldl max (max y z) := ih (max y z) _ (List.mem_cons_self _ _)
      · rcases List.mem_cons.mp h with h2 | h2
        · subst h2
          calc y ≤ max x y := le_max_right x y
            _ ≤ zs.foldl max (max x y) := ih (max x y) _ (List.mem_cons_self _ _)
        · exact ih (max x z) y (List.mem_cons_of_mem _ h2)

theorem listMinQ_mem {l : List ℚ} (h : l ≠ []) : listMinQ l ∈ l := by
  cases l with
  | nil => exact absurd rfl h
  | cons x xs => exact foldl_min_mem xs x

theorem listMinQ_le {l : List ℚ} : ∀ y ∈ l, listMinQ l ≤ y := by
  cases l with
  | nil => intro y hy; simp at hy
  | cons x xs => intro y hy; exact foldl_min_le xs x y hy

theorem le_listMaxQ {l : List ℚ} : ∀ y ∈ l, y ≤ listMaxQ l := by
  cases l with
  | nil => intro y hy; simp at hy
  | cons x xs => intro y hy; exact le_foldl_max xs x y hy

theorem listMaxQ_mem {l : List ℚ} (h : l ≠ []) : listMaxQ l ∈ l := by
  cases l with
  | nil => exact absurd rfl h
  | cons x xs => exact foldl_max_mem xs x

theorem listMinQ_eq_of {l : List ℚ} {a : ℚ} (ha : a ∈ l) (hle : ∀ y ∈ l, a ≤ y) :
    listMinQ l = a := by
  have hne : l ≠ [] := List.ne_nil_of_mem ha
  exact le_antisymm (listMinQ_le a ha) (hle _ (listMinQ_mem hne))

theorem listMaxQ_eq_of {l : List ℚ} {a : ℚ} (ha : a ∈ l) (hge : ∀ y ∈ l, y ≤ a) :
    listMaxQ l = a := by
  have hne : l ≠ [] := List.ne_nil_of_mem ha
  exact le_antisymm (hge _ (listMaxQ_mem hne)) (le_listMaxQ a ha)

/-! ### Helper lemmas: the fitted scaler and its application -/

theorem scalerLookup_fitScaler (t : Table) :
    ∀ (names : List String) (name : String),
      scalerLookup (fitScaler t names) name =
        if name ∈ names then some (colMin t name, colMax t name) else none := by
  intro names
  induction names with
  | nil => intro name; simp [fitScaler, scalerLookup]
  | cons n ns ih =>
      intro name
      simp only [fitScaler, List.map_cons, scalerLookup]
      by_cases h : n = name
      · subst h; simp
      · rw [if_neg h]
        have := ih name
        simp only [fitScaler] at this
        rw [this]
        by_cases h2 : name ∈ ns
        · simp [h2]
        · have : name ∉ n :: ns := by
            intro hc
            rcases List.mem_cons.mp hc with hc1 | hc1
            · exact h hc1.symm
            · exact h2 hc1
          simp [h2, this]

theorem rowCell_transformRow (s : List (String × ℚ × ℚ)) (name : String) :
    ∀ (cs : List (String × ColType)) (r : List Cell),
      rowCell name cs (transformRow s cs r) =
        (rowCell name cs r).map (transformCell s name) := by
  intro cs
  induction cs with
  | nil => intro r; simp [transformRow, rowCell]
  | cons c cs ih =>
      intro r
      cases r with
      | nil => simp [transformRow, rowCell]
      | cons x xs =>
          simp only [transformRow, List.zip_cons_cons, List.map_cons, rowCell]
          by_cases h : c.1 = name
          · subst h; simp
          · rw [if_neg h, if_neg h]
            exact ih xs

theorem colCells_applyScaler (s : List (String × ℚ × ℚ)) (t : Table) (name : String) :
    colCells (applyScaler s t) name = (colCells t name).map (transformCell s name) := by
  unfold colCells applyScaler
  simp only [List.filterMap_map]
  rw [List.map_filterMap]
  apply List.filterMap_congr
  intro r _
  exact rowCell_transformRow s name t.cols r

theorem cellNum_transformCell_covered {s : List (String × ℚ × ℚ)} {name : String}
    {mn mx : ℚ} (h : scalerLookup s name = some (mn, mx)) (c : Cell) :
    cellNum (transformCell s name c) = (cellNum c).map (minMaxTransform mn mx) := by
  cases c with
  | num q => simp [transformCell, h, cellNum]
  | missing => simp [transformCell, h, cellNum]
  | txt a => simp [transformCell, h, cellNum]

theorem colVals_applyScaler_covered {s : List (String × ℚ × ℚ)} {name : String}
    {mn mx : ℚ} (h : scalerLookup s name = some (mn, mx)) (t : Table) :
    colVals (applyScaler s t) name = (colVals t name).map (minMaxTransform mn mx) := by
  unfold colVals
  rw [colCells_applyScaler, List.filterMap_map, List.map_filterMap]
  apply List.filterMap_congr
  intro c _
  exact cellNum_transformCell_covered h c

/-! ### Helper lemmas: min-max transform arithmetic -/

theorem scaleDenom_eq_of_lt {mn mx : ℚ} (h : mn < mx) : scaleDenom mn mx = mx - mn := by
  unfold scaleDenom
  rw [if_neg (sub_ne_zero_of_ne (ne_of_gt h))]

theorem minMaxTransform_self_min {mn mx : ℚ} : minMaxTransform mn mx mn = 0 := by
  unfold minMaxTransform
  rw [sub_self, zero_div]

theorem minMaxTransform_self_max {mn mx : ℚ} (h : mn < mx) : minMaxTransform mn mx mx = 1 := by
  unfold minMaxTransform
  rw [scaleDenom_eq_of_lt h]
  exact div_self (sub_ne_zero_of_ne (ne_of_gt h))

theorem minMaxTransform_mono {mn mx : ℚ} (h : mn < mx) {x y : ℚ} (hxy : x ≤ y) :
    minMaxTransform mn mx x ≤ minMaxTransform mn mx y := by
  unfold minMaxTransform
  have hd : (0 : ℚ) < scaleDenom mn mx := by
    rw [scaleDenom_eq_of_lt h]
    exact sub_pos.mpr h
  exact div_le_div_of_nonneg_right (sub_le_sub_right hxy mn) hd.le

theorem listMinQ_lt_listMaxQ {l : List ℚ} {a b : ℚ} (ha : a ∈ l) (hb : b ∈ l)
    (hab : a ≠ b) : listMinQ l < listMaxQ l := by
  rcases lt_or_gt_of_ne hab with h | h
  · exact lt_of_le_of_lt (listMinQ_le a ha) (lt_of_lt_of_le h (le_listMaxQ b hb))
  · exact lt_of_le_of_lt (listMinQ_le b hb) (lt_of_lt_of_le h (le_listMaxQ a ha))

/-- Re-fitting a min-max scaler on the output of a min-max transform and
transforming again is the identity: the refit statistics are `(0, 1)` for a
non-constant column, `(0, 0)` for a constant or empty one, and in each
case the resulting transform maps every value to itself. -/
theorem minMaxTransform_renorm (vals : List ℚ) (x : ℚ) :
    minMaxTransform
      (listMinQ (vals.map (minMaxTransform (listMinQ vals) (listMaxQ vals))))
      (listMaxQ (vals.map (minMaxTransform (listMinQ vals) (listMaxQ vals)))) x = x := by
  set mn := listMinQ vals with hmn
  set mx := listMaxQ vals with hmx
  set l2 := vals.map (minMaxTransform mn mx) with hl2
  rcases eq_or_ne vals [] with hnil | hne
  · have : l2 = [] := by rw [hl2, hnil]; rfl
    rw [this]
    show minMaxTransform (listMinQ []) (listMaxQ []) x = x
    norm_num [minMaxTransform, scaleDenom, listMinQ, listMaxQ]
  · have hmnmem : mn ∈ vals := listMinQ_mem hne
    have hmxmem : mx ∈ vals := listMaxQ_mem hne
    rcases eq_or_lt_of_le (listMinQ_le mx hmxmem) with heq | hlt
    · -- constant column: every value equals the common min = max
      have heq2 : mn = mx := by rw [hmn]; exact heq
      have hall0 : ∀ y ∈ l2, y = 0 := by
        intro y hy
        rcases List.mem_map.mp hy with ⟨v, hv, rfl⟩
        have hv1 : mn ≤ v := listMinQ_le v hv
        have hv2 : v ≤ mx := le_listMaxQ v hv
        have hveq : v = mn := le_antisymm (by rw [heq2]; exact hv2) hv1
        rw [hveq, minMaxTransform_self_min]
      have h0mem : (0 : ℚ) ∈ l2 := by
        have himg := List.mem_map_of_mem (minMaxTransform mn mx) hmnmem
        have h0 : minMaxTransform mn mx mn = 0 := minMaxTransform_self_min
        rw [← h0]
        exact himg
      have hmin2 : listMinQ l2 = 0 := listMinQ_eq_of h0mem (fun y hy => (hall0 y hy).ge)
      have hmax2 : listMaxQ l2 = 0 := listMaxQ_eq_of h0mem (fun y hy => (hall0 y hy).le)
      rw [hmin2, hmax2]
      norm_num [minMaxTransform, scaleDenom]
    · -- non-constant column: refit statistics are exactly (0, 1)
      have h0mem : (0 : ℚ) ∈ l2 := by
        have himg := List.mem_map_of_mem (minMaxTransform mn mx) hmnmem
        rwa [minMaxTransform_self_min] at himg
      have h1mem : (1 : ℚ) ∈ l2 := by
        have himg := List.mem_map_of_mem (minMaxTransform mn mx) hmxmem
        rwa [minMaxTransform_self_max hlt] at himg
      have hmin2 : listMinQ l2 = 0 := by
        apply listMinQ_eq_of h0mem
        intro y hy
        rcases List.mem_map.mp hy with ⟨v, hv, rfl⟩
        have hm := minMaxTransform_mono hlt (listMinQ_le v hv)
        rwa [minMaxTransform_self_min] at hm
      have hmax2 : listMaxQ l2 = 1 := by
        apply listMaxQ_eq_of h1mem
        intro y hy
        rcases List.mem_map.mp hy with ⟨v, hv, rfl⟩
        have hm := minMaxTransform_mono hlt (le_listMaxQ v hv)
        rwa [minMaxTransform_self_max hlt] at hm
      rw [hmin2, hmax2]
      norm_num [minMaxTransform, scaleDenom]

/-! ### Helper lemmas: rows, well-formedness, resolution -/

theorem Table.eq_of {a b : Table} (h1 : a.cols = b.cols) (h2 : a.rows = b.rows) :
    a = b := by
  cases a
  cases b
  simp_all

theorem transformRow_length (s : List (String × ℚ × ℚ)) (cs : List (String × ColType))
    (r : List Cell) : (transformRow s cs r).length = min cs.length r.length := by
  simp [transformRow]

theorem WF_applyScaler {t : Table} (s : List (String × ℚ × ℚ)) (hwf : WF t) :
    WF (applyScaler s t) := by
  intro r hr
  rcases List.mem_map.mp hr with ⟨r0, hr0, rfl⟩
  show (transformRow s t.cols r0).length = (applyScaler s t).cols.length
  rw [transformRow_length]
  have hlen := hwf r0 hr0
  simp [applyScaler, hlen]

theorem transformRow_eq_self {s : List (String × ℚ × ℚ)}
    (hid : ∀ (name : String) (c : Cell), transformCell s name c = c) :
    ∀ (cs : List (String × ColType)) (r : List Cell), r.length = cs.length →
      transformRow s cs r = r := by
  intro cs
  induction cs with
  | nil =>
      intro r h
      have : r = [] := List.length_eq_zero.mp h
      subst this
      rfl
  | cons c cs ih =>
      intro r h
      cases r with
      | nil => simp at h
      | cons x xs =>
          have h2 : xs.length = cs.length := by simpa using h
          show transformCell s c.1 x :: transformRow s cs xs = x :: xs
          rw [hid c.1 x, ih xs h2]

theorem resolve_subset (t : Table) (nc : Option (List String)) :
    ∀ n ∈ resolveNumericCols t nc, n ∈ colNames t := by
  intro n hn
  cases nc with
  | none =>
      unfold resolveNumericCols numericColNames at hn
      rcases List.mem_map.mp hn with ⟨c, hc, rfl⟩
      exact List.mem_map.mpr ⟨c, (List.mem_filter.mp hc).1, rfl⟩
  | some l =>
      unfold resolveNumericCols at hn
      have hf := List.mem_filter.mp hn
      simpa using hf.2

theorem resolve_applyScaler (t : Table) (s : List (String × ℚ × ℚ))
    (names : List String) (h : ∀ n ∈ names, n ∈ colNames t) :
    resolveNumericCols (applyScaler s t) (some names) = names := by
  unfold resolveNumericCols
  apply List.filter_eq_self.mpr
  intro n hn
  have hmem : n ∈ colNames (applyScaler s t) := h n hn
  simpa using hmem

/-! ### Claim theorems: normalization -/

/-- Claim C1: for every target column with at least two distinct numeric values,
`normalize_features` replaces each value `x` by
`(x - min) / (max - min)` over the column's current rows, the resulting
column attains minimum `0` and maximum `1` exactly (so in particular
within tolerance `1e-9`), and the mapping is monotonic. -/
theorem normalize_features_nonconstant_spec (t : Table) (nc : Option (List String))
    (name : String) (hname : name ∈ (normalize_features t nc).2.2)
    (hne : ∃ x ∈ colVals t name, ∃ y ∈ colVals t name, x ≠ y) :
    colVals (normalize_features t nc).1 name =
      (colVals t name).map
        (fun x => (x - colMin t name) / (colMax t name - colMin t name)) ∧
    ((0 : ℚ) ∈ colVals (normalize_features t nc).1 name ∧
      ∀ y ∈ colVals (normalize_features t nc).1 name, 0 ≤ y) ∧
    ((1 : ℚ) ∈ colVals (normalize_features t nc).1 name ∧
      ∀ y ∈ colVals (normalize_features t nc).1 name, y ≤ 1) ∧
    (∀ x ∈ colVals t name, ∀ y ∈ colVals t name, x ≤ y →
      (x - colMin t name) / (colMax t name - colMin t name) ≤
        (y - colMin t name) / (colMax t name - colMin t name)) := by
  obtain ⟨a, ha, b, hb, hab⟩ := hne
  have hlt : colMin t name < colMax t name := listMinQ_lt_listMaxQ ha hb hab
  have hname2 : name ∈ resolveNumericCols t nc := hname
  have hlook : scalerLookup (fitScaler t (resolveNumericCols t nc)) name =
      some (colMin t name, colMax t name) := by
    rw [scalerLookup_fitScaler, if_pos hname2]
  have hbridge : colVals (normalize_features t nc).1 name =
      (colVals t name).map (minMaxTransform (colMin t name) (colMax t name)) :=
    colVals_applyScaler_covered hlook t
  have hfun : ∀ x : ℚ, minMaxTransform (colMin t name) (colMax t name) x =
      (x - colMin t name) / (colMax t name - colMin t name) := by
    intro x
    unfold minMaxTransform
    rw [scaleDenom_eq_of_lt hlt]
  refine ⟨?_, ⟨?_, ?_⟩, ⟨?_, ?_⟩, ?_⟩
  · rw [hbridge]
    exact List.map_congr_left (fun x _ => hfun x)
  · rw [hbridge]
    have hmem := List.mem_map_of_mem (minMaxTransform (colMin t name) (colMax t name))
      (listMinQ_mem (List.ne_nil_of_mem ha))
    have h0 : minMaxTransform (colMin t name) (colMax t name)
        (listMinQ (colVals t name)) = 0 := minMaxTransform_self_min
    rwa [h0] at hmem
  · intro y hy
    rw [hbridge] at hy
    rcases List.mem_map.mp hy with ⟨v, hv, rfl⟩
    have hm := minMaxTransform_mono hlt (listMinQ_le v hv)
    have h0 : minMaxTransform (colMin t name) (colMax t name)
        (listMinQ (colVals t name)) = 0 := minMaxTransform_self_min
    rwa [h0] at hm
  · rw [hbridge]
    have hmem := List.mem_map_of_mem (minMaxTransform (colMin t name) (colMax t name))
      (listMaxQ_mem (List.ne_nil_of_mem ha))
    have h1 : minMaxTransform (colMin t name) (colMax t name)
        (listMaxQ (colVals t name)) = 1 := minMaxTransform_self_max hlt
    rwa [h1] at hmem
  · intro y hy
    rw [hbridge] at hy
    rcases List.mem_map.mp hy with ⟨v, hv, rfl⟩
    have hm := minMaxTransform_mono hlt (le_listMaxQ v hv)
    have h1 : minMaxTransform (colMin t name) (colMax t name)
        (listMaxQ (colVals t name)) = 1 := minMaxTransform_self_max hlt
    rwa [h1] at hm
  · intro x hx y hy hxy
    have hm := minMaxTransform_mono hlt hxy
    rwa [hfun x, hfun y] at hm

/-- Witness for C1 at a concrete two-valued column. -/
theorem normalize_features_nonconstant_spec_witness :
    ("calories" ∈ (normalize_features exNormT none).2.2) ∧
    (∃ x ∈ colVals exNormT "calories", ∃ y ∈ colVals exNormT "calories", x ≠ y) ∧
    ((1 : ℚ) ∈ colVals (normalize_features exNormT none).1 "calories" ∧
      ∀ y ∈ colVals (normalize_features exNormT none).1 "calories", y ≤ 1) :=
  ⟨by decide, ⟨1, by decide, 3, by decide, by decide⟩,
    (normalize_features_nonconstant_spec exNormT none "calories" (by decide)
      ⟨1, by decide, 3, by decide, by decide⟩).2.2.1⟩

/-- Claim C10: for every target column whose numeric values are all equal,
`normalize_features` is total (no error is raised) and maps every value of
that column to `0`: the scaler's `_handle_zeros_in_scale` replaces the zero
range by `1`, so the transform computes `(x - min) / 1 = 0`. -/
theorem normalize_features_constant_spec (t : Table) (nc : Option (List String))
    (name : String) (hname : name ∈ (normalize_features t nc).2.2)
    (hconst : ∀ x ∈ colVals t name, ∀ y ∈ colVals t name, x = y) :
    ∀ y ∈ colVals (normalize_features t nc).1 name, y = 0 := by
  have hname2 : name ∈ resolveNumericCols t nc := hname
  have hlook : scalerLookup (fitScaler t (resolveNumericCols t nc)) name =
      some (colMin t name, colMax t name) := by
    rw [scalerLookup_fitScaler, if_pos hname2]
  have hbridge : colVals (normalize_features t nc).1 name =
      (colVals t name).map (minMaxTransform (colMin t name) (colMax t name)) :=
    colVals_applyScaler_covered hlook t
  intro y hy
  rw [hbridge] at hy
  rcases List.mem_map.mp hy with ⟨v, hv, rfl⟩
  have hvmn : v = colMin t name :=
    hconst v hv _ (listMinQ_mem (List.ne_nil_of_mem hv))
  unfold minMaxTransform
  rw [hvmn, sub_self, zero_div]

/-- Witness for C10 at a concrete constant column. -/
theorem normalize_features_constant_spec_witness :
    ("x" ∈ (normalize_features exConstT none).2.2) ∧
    (∀ x ∈ colVals exConstT "x", ∀ y ∈ colVals exConstT "x", x = y) ∧
    (∀ y ∈ colVals (normalize_features exConstT none).1 "x", y = 0) :=
  ⟨by decide, by decide,
    normalize_features_constant_spec exConstT none "x" (by decide) (by decide)⟩

/-- Counterexample to C2 as stated: at a concrete constant column the
normalizer's divisor is not the raw range `max - min = 0` but the guarded
value `1`, and the transform produces the well-defined output `[0, 0]` —
there is no division by zero. -/
theorem normalize_divide_by_zero_counterexample :
    colMin exConstT "x" = colMax exConstT "x" ∧
    scaleDenom (colMin exConstT "x") (colMax exConstT "x") = 1 ∧
    scaleDenom (colMin exConstT "x") (colMax exConstT "x") ≠
      colMax exConstT "x" - colMin exConstT "x" ∧
    colVals (normalize_features exConstT none).1 "x" = [0, 0] := by
  have hv : colVals exConstT "x" = [5, 5] := rfl
  have hmin : colMin exConstT "x" = 5 := by
    unfold colMin
    rw [hv]
    simp [listMinQ]
  have hmax : colMax exConstT "x" = 5 := by
    unfold colMax
    rw [hv]
    simp [listMaxQ]
  have hlook : scalerLookup (fitScaler exConstT (resolveNumericCols exConstT none)) "x" =
      some (colMin exConstT "x", colMax exConstT "x") := by
    rw [scalerLookup_fitScaler, if_pos]
    decide
  have hb : colVals (normalize_features exConstT none).1 "x" =
      (colVals exConstT "x").map (minMaxTransform (colMin exConstT "x") (colMax exConstT "x")) :=
    colVals_applyScaler_covered hlook exConstT
  refine ⟨by rw [hmin, hmax], ?_, ?_, ?_⟩
  · rw [hmin, hmax]
    simp [scaleDenom]
  · rw [hmin, hmax]
    simp [scaleDenom]
  · rw [hb, hv, hmin, hmax]
    simp [minMaxTransform, scaleDenom]

/-- Claim C2, amended: the divisor actually used by the fitted scaler is never
zero — for a constant column `scaleDenom` is `1`, otherwise it is the
nonzero range — so the transform `(x - min) / scaleDenom` is always
well-defined. -/
theorem normalize_scaler_denominator_ne_zero (t : Table) (nc : Option (List String)) :
    ∀ e ∈ (normalize_features t nc).2.1,
      scaleDenom e.2.1 e.2.2 ≠ 0 ∧
      (∀ x : ℚ, minMaxTransform e.2.1 e.2.2 x = (x - e.2.1) / scaleDenom e.2.1 e.2.2) := by
  intro e _
  constructor
  · unfold scaleDenom
    split
    · exact one_ne_zero
    · next h => exact h
  · intro x
    rfl

/-- Witness for the amended C2 at the concrete constant column. -/
theorem normalize_scaler_denominator_ne_zero_witness :
    (("x", (5 : ℚ), (5 : ℚ)) ∈ (normalize_features exConstT none).2.1) ∧
    scaleDenom (5 : ℚ) (5 : ℚ) ≠ 0 :=
  ⟨by decide,
    (normalize_scaler_denominator_ne_zero exConstT none ("x", (5 : ℚ), (5 : ℚ))
      (by decide)).1⟩

/-- Re-fitting and re-applying the scaler on its own output changes
nothing: the refit statistics per column are `(0, 1)` or `(0, 0)`, and
either transform is the identity. -/
theorem applyScaler_refit_id (t : Table) (names : List String) (hwf : WF t) :
    applyScaler (fitScaler (applyScaler (fitScaler t names) t) names)
      (applyScaler (fitScaler t names) t) = applyScaler (fitScaler t names) t := by
  set s1 := fitScaler t names with hs1
  set t1 := applyScaler s1 t with ht1
  set s2 := fitScaler t1 names with hs2
  have hid : ∀ (nm : String) (c : Cell), transformCell s2 nm c = c := by
    intro nm c
    cases hcase : scalerLookup s2 nm with
    | none => cases c <;> simp [transformCell, hcase]
    | some p =>
        obtain ⟨mn2, mx2⟩ := p
        have hfit := scalerLookup_fitScaler t1 names nm
        rw [← hs2, hcase] at hfit
        by_cases hmem : nm ∈ names
        · rw [if_pos hmem] at hfit
          have hmn2 : mn2 = colMin t1 nm := by
            have := congrArg (fun o => (Option.getD o (0, 0)).1) hfit
            simpa using this
          have hmx2 : mx2 = colMax t1 nm := by
            have := congrArg (fun o => (Option.getD o (0, 0)).2) hfit
            simpa using this
          have hlook1 : scalerLookup s1 nm = some (colMin t nm, colMax t nm) := by
            rw [hs1, scalerLookup_fitScaler, if_pos hmem]
          have hb : colVals t1 nm =
              (colVals t nm).map (minMaxTransform (colMin t nm) (colMax t nm)) := by
            rw [ht1]
            exact colVals_applyScaler_covered hlook1 t
          cases c with
          | num q =>
              simp only [transformCell, hcase]
              have hgoal : minMaxTransform mn2 mx2 q = q := by
                rw [hmn2, hmx2]
                unfold colMin colMax
                rw [hb]
                exact minMaxTransform_renorm (colVals t nm) q
              rw [hgoal]
          | missing => simp [transformCell, hcase]
          | txt a => simp [transformCell, hcase]
        · rw [if_neg hmem] at hfit
          simp at hfit
  have hwf1 : WF t1 := by
    rw [ht1]
    exact WF_applyScaler s1 hwf
  apply Table.eq_of
  · rfl
  · show t1.rows.map (transformRow s2 t1.cols) = t1.rows
    have hrow : ∀ r ∈ t1.rows, transformRow s2 t1.cols r = r := by
      intro r hr
      exact transformRow_eq_self hid t1.cols r (hwf1 r hr)
    calc t1.rows.map (transformRow s2 t1.cols)
        = t1.rows.map id := List.map_congr_left hrow
      _ = t1.rows := List.map_id t1.rows

/-- Claim C9: normalizing the normalizer's own output again — refitting the
scaler on the already-normalized target columns and transforming — leaves
the table unchanged, for every well-formed input table. -/
theorem normalize_features_idempotent (t : Table) (nc : Option (List String))
    (hwf : WF t) :
    (normalize_features (normalize_features t nc).1
      (some (normalize_features t nc).2.2)).1 = (normalize_features t nc).1 := by
  have hres := resolve_applyScaler t (fitScaler t (resolveNumericCols t nc))
    (resolveNumericCols t nc) (resolve_subset t nc)
  show applyScaler
      (fitScaler (applyScaler (fitScaler t (resolveNumericCols t nc)) t)
        (resolveNumericCols (applyScaler (fitScaler t (resolveNumericCols t nc)) t)
          (some (resolveNumericCols t nc))))
      (applyScaler (fitScaler t (resolveNumericCols t nc)) t) =
    applyScaler (fitScaler t (resolveNumericCols t nc)) t
  rw [hres]
  exact applyScaler_refit_id t (resolveNumericCols t nc) hwf

/-- Witness for C9 at a concrete two-row table. -/
theorem normalize_features_idempotent_witness :
    WF exNormT ∧
    (normalize_features (normalize_features exNormT none).1
      (some (normalize_features exNormT none).2.2)).1 = (normalize_features exNormT none).1 :=
  ⟨by decide, normalize_features_idempotent exNormT none (by decide)⟩

/-! ### Helper lemmas: pipeline shapes -/

theorem check_missing_values_cols (t : Table) :
    (check_missing_values t).cols = t.cols := by
  unfold check_missing_values
  split <;> rfl

theorem check_duplicates_cols (t : Table) :
    (check_duplicates t).cols = t.cols := by
  unfold check_duplicates
  split <;> rfl

theorem drop_unnecessary_columns_rows_length (t : Table) (d : List String) :
    (drop_unnecessary_columns t d).rows.length = t.rows.length := by
  simp only [drop_unnecessary_columns]
  split
  · rfl
  · simp

/-! ### Claim theorems: pipeline metadata -/

/-- Counterexample to C3 as stated: on a concrete run whose input has a
missing value and whose drop list contains the absent name `image`, the
metadata's `original_shape` differs from the shape of the table as loaded
(it records the post-quality-check shape), and `columns_dropped` differs
from the list of columns actually removed (it records the requested drop
list verbatim). -/
theorem preprocessing_pipeline_metadata_counterexample :
    (preprocessing_pipeline "nutrition.csv" exMissT (some "nutrition_preprocessing.csv")
      ["id", "image"] none).2.2.2.original_shape ≠ shape exMissT ∧
    (preprocessing_pipeline "nutrition.csv" exMissT (some "nutrition_preprocessing.csv")
      ["id", "image"] none).2.2.2.columns_dropped ≠
      cols_to_remove (describe_data (check_duplicates (check_missing_values exMissT)))
        ["id", "image"] := by
  constructor
  · show ((1 : Nat), (2 : Nat)) ≠ ((2 : Nat), (2 : Nat))
    decide
  · show ["id", "image"] ≠ ["id"]
    decide

/-- Claim C3, amended: the returned metadata equals the reference record in which
`input_file` and `output_file` are the given paths, `original_shape` is the
shape of the table after the quality-check stages (not the shape as
loaded), `final_shape` is the shape of the returned final table,
`columns_dropped` is the requested drop list verbatim (not the subset
actually removed), `normalized_columns` is the resolved target list and
`scaler` the fitted scaler; moreover `final_shape` is exactly (rows after
quality checks, columns surviving the drop), the final row count never
exceeds the loaded row count, and the recorded column count is the loaded
one. -/
theorem preprocessing_pipeline_metadata_spec (path : String) (loaded : Table)
    (out : Option String) (d : List String) (nc : Option (List String)) :
    (preprocessing_pipeline path loaded out d nc).2.2.2 =
      { input_file := path,
        output_file := out,
        original_shape :=
          shape (describe_data (check_duplicates (check_missing_values loaded))),
        final_shape := shape (preprocessing_pipeline path loaded out d nc).1,
        columns_dropped := d,
        normalized_columns := (preprocessing_pipeline path loaded out d nc).2.2.1,
        scaler := (preprocessing_pipeline path loaded out d nc).2.1 } ∧
    (preprocessing_pipeline path loaded out d nc).2.2.2.final_shape =
      ((describe_data (check_duplicates (check_missing_values loaded))).rows.length,
        (drop_unnecessary_columns
          (describe_data (check_duplicates (check_missing_values loaded))) d).cols.length) ∧
    (preprocessing_pipeline path loaded out d nc).2.2.2.original_shape.1 ≤
      loaded.rows.length ∧
    (preprocessing_pipeline path loaded out d nc).2.2.2.original_shape.2 =
      loaded.cols.length := by
  refine ⟨rfl, ?_, ?_, ?_⟩
  · show shape (applyScaler
        (fitScaler
          (drop_unnecessary_columns
            (describe_data (check_duplicates (check_missing_values loaded))) d)
          (resolveNumericCols
            (drop_unnecessary_columns
              (describe_data (check_duplicates (check_missing_values loaded))) d) nc))
        (drop_unnecessary_columns
          (describe_data (check_duplicates (check_missing_values loaded))) d)) = _
    have h1 : ∀ (u : Table) (s : List (String × ℚ × ℚ)),
        shape (applyScaler s u) = (u.rows.length, u.cols.length) := by
      intro u s
      simp [shape, applyScaler]
    rw [h1, drop_unnecessary_columns_rows_length]
  · show (describe_data (check_duplicates (check_missing_values loaded))).rows.length ≤
      loaded.rows.length
    calc (describe_data (check_duplicates (check_missing_values loaded))).rows.length
        ≤ (check_missing_values loaded).rows.length :=
          (check_duplicates_rows_sublist (check_missing_values loaded)).length_le
      _ ≤ loaded.rows.length := by
          rw [check_missing_values_rows loaded]
          exact List.length_filter_le _ _
  · show (describe_data (check_duplicates (check_missing_values loaded))).cols.length =
      loaded.cols.length
    show (check_duplicates (check_missing_values loaded)).cols.length = loaded.cols.length
    rw [check_duplicates_cols, check_missing_values_cols]

end NutritionPrep
